import Mathlib

/-!
Verification of `binance_trade_bot/binance_stream_manager.py`.

A shallow embedding of the stream manager: the cache collections are
association lists mirroring Python `dict` insertion semantics (set
overwrites in place, `del` removes the key or raises `KeyError`),
message handlers are state-transforming functions that also report
whether the Python code would have raised, together with the ordered
list of socket-supervision side effects (stop / restart / clear) the
handler performed.  Numeric strings are parsed into exact rationals;
the subsystem never computes with prices, it only stores them, so
`Rat` stands in for Python `float` values.
-/

namespace BinanceStream

/-- Value of a list of decimal digit characters, most significant first. -/
def digitsVal (cs : List Char) : Nat :=
  cs.foldl (fun acc c => acc * 10 + (c.toNat - 48)) 0

/-- Parse an unsigned decimal literal (`"12"`, `"12.5"`, `".5"`, `"12."`),
modelling the plain-decimal fragment of Python `float(...)`.
`none` models a raised `ValueError`. -/
def parseDecimal? (cs : List Char) : Option Rat :=
  let intPart := cs.takeWhile Char.isDigit
  let rest := cs.dropWhile Char.isDigit
  match rest with
  | [] => if intPart.isEmpty then none else some (digitsVal intPart : Rat)
  | '.' :: frac =>
      if frac.all Char.isDigit && (!intPart.isEmpty || !frac.isEmpty) then
        some ((digitsVal (intPart ++ frac) : Rat) / ((10 : Rat) ^ frac.length))
      else none
  | _ => none

/-- Python `float(s)` on a string, as used by the stream manager:
`some q` is a successful parse, `none` a raised `ValueError`. -/
def parseFloat? (s : String) : Option Rat :=
  match s.data with
  | [] => none
  | '-' :: cs => (parseDecimal? cs).map (fun q => -q)
  | '+' :: cs => parseDecimal? cs
  | cs => parseDecimal? cs

/-- Lookup in an association list, mirroring Python `d[k]` reads
(first entry wins; a well-formed dict has distinct keys). -/
def mapGet? {α : Type} : List (String × α) → String → Option α
  | [], _ => none
  | (k', v) :: rest, k => if k' = k then some v else mapGet? rest k

/-- Python `d[k] = v`: overwrite the existing entry in place, else append. -/
def mapSet {α : Type} : List (String × α) → String → α → List (String × α)
  | [], k, v => [(k, v)]
  | (k', v') :: rest, k, v =>
      if k' = k then (k', v) :: rest else (k', v') :: mapSet rest k v

/-- Python `del d[k]`: `none` models a raised `KeyError` (key absent). -/
def mapDel {α : Type} : List (String × α) → String → Option (List (String × α))
  | [], _ => none
  | (k', v) :: rest, k =>
      if k' = k then some rest else (mapDel rest k).map (fun m => (k', v) :: m)

/-- The keys of an association list are pairwise distinct (true of every
list representing a Python `dict`). -/
def distinctKeys {α : Type} : List (String × α) → Bool
  | [] => true
  | (k, _) :: rest => !(mapGet? rest k).isSome && distinctKeys rest

@[simp] theorem mapGet_nil {α : Type} (k : String) :
    mapGet? ([] : List (String × α)) k = none := rfl

@[simp] theorem mapGet_cons {α : Type} (k1 k : String) (v1 : α) (tl : List (String × α)) :
    mapGet? ((k1, v1) :: tl) k = if k1 = k then some v1 else mapGet? tl k := rfl

@[simp] theorem mapSet_nil {α : Type} (k : String) (v : α) :
    mapSet ([] : List (String × α)) k v = [(k, v)] := rfl

@[simp] theorem mapSet_cons {α : Type} (k1 k : String) (v1 v : α) (tl : List (String × α)) :
    mapSet ((k1, v1) :: tl) k v
      = if k1 = k then (k1, v) :: tl else (k1, v1) :: mapSet tl k v := rfl

@[simp] theorem mapDel_nil {α : Type} (k : String) :
    mapDel ([] : List (String × α)) k = none := rfl

@[simp] theorem mapDel_cons {α : Type} (k1 k : String) (v1 : α) (tl : List (String × α)) :
    mapDel ((k1, v1) :: tl) k
      = if k1 = k then some tl else (mapDel tl k).map (fun m => (k1, v1) :: m) := rfl

theorem mapGet_mapSet {α : Type} (m : List (String × α)) (k k' : String) (v : α) :
    mapGet? (mapSet m k v) k' = if k = k' then some v else mapGet? m k' := by
  induction m with
  | nil =>
      by_cases h : k = k' <;> simp [h]
  | cons hd tl ih =>
      obtain ⟨k1, v1⟩ := hd
      by_cases h1 : k1 = k
      · subst h1
        by_cases h2 : k1 = k' <;> simp [h2]
      · by_cases h2 : k1 = k'
        · subst h2
          have hne : ¬(k = k1) := fun hh => h1 hh.symm
          simp [h1, hne]
        · simp [h1, h2, ih]

theorem mapDel_none_iff {α : Type} (m : List (String × α)) (k : String) :
    mapDel m k = none ↔ mapGet? m k = none := by
  induction m with
  | nil => simp
  | cons hd tl ih =>
      obtain ⟨k1, v1⟩ := hd
      by_cases h1 : k1 = k <;> simp [h1, ih]

theorem mapGet_mapDel_self {α : Type} (m : List (String × α)) (k : String)
    (hd : distinctKeys m = true) (m' : List (String × α)) (h : mapDel m k = some m') :
    mapGet? m' k = none := by
  induction m generalizing m' with
  | nil => simp at h
  | cons hd1 tl ih =>
      obtain ⟨k1, v1⟩ := hd1
      simp only [distinctKeys, Bool.and_eq_true, Bool.not_eq_true'] at hd
      by_cases h1 : k1 = k
      · subst h1
        simp at h
        subst h
        have h2 := hd.1
        cases hmg : mapGet? tl k1 with
        | none => rfl
        | some v => rw [hmg] at h2; simp at h2
      · simp only [mapDel_cons, if_neg h1, Option.map_eq_some'] at h
        obtain ⟨m'', hm'', rfl⟩ := h
        simp [h1, ih hd.2 m'' hm'']

theorem mapGet_mapDel_other {α : Type} (m : List (String × α)) (k k' : String)
    (hne : k' ≠ k) (m' : List (String × α)) (h : mapDel m k = some m') :
    mapGet? m' k' = mapGet? m k' := by
  induction m generalizing m' with
  | nil => simp at h
  | cons hd1 tl ih =>
      obtain ⟨k1, v1⟩ := hd1
      by_cases h1 : k1 = k
      · subst h1
        simp at h
        subst h
        have h2 : ¬(k1 = k') := fun hh => hne hh.symm
        simp [h2]
      · simp only [mapDel_cons, if_neg h1, Option.map_eq_some'] at h
        obtain ⟨m'', hm'', rfl⟩ := h
        by_cases h2 : k1 = k' <;> simp [h2, ih m'' hm'']

/-- One element of a ticker stream message: the symbol field `"s"` and the
current-price field `"c"` (a numeric string). -/
structure TickerUpdate where
  s : String
  c : String
deriving DecidableEq

/-- A ticker stream message as received by `_process_ticker_values`:
either a dict carrying a field `"e"` (the in-band error shape), or a
list of per-symbol updates.  `msg["e"] == "error"` triggers the restart
branch; iterating a non-error dict in the `for` loop yields its keys
(strings), so indexing `ticker["s"]` raises at once. -/
inductive TickerMsg
  | errDict (e : String)
  | updates (ts : List TickerUpdate)
deriving DecidableEq

/-- One element of the `"B"` array of an `outboundAccountPosition` event:
asset field `"a"` and free-amount field `"f"` (a numeric string). -/
structure BalanceEntry where
  a : String
  f : String
deriving DecidableEq

/-- A user stream message: a dict whose fields are modelled as optional;
reading an absent field (`msg["e"]`, `msg["B"]`, …) raises `KeyError`. -/
structure UserMsg where
  e : Option String
  B : Option (List BalanceEntry)
  a : Option String
  s : Option String
  S : Option String
  o : Option String
  i : Option String
  Z : Option String
  X : Option String
  p : Option String
  T : Option String
deriving DecidableEq

/-- A `UserMsg` with every field absent. -/
def UserMsg.empty : UserMsg :=
  ⟨none, none, none, none, none, none, none, none, none, none, none⟩

/-- The record `BinanceOrder.__init__` builds from an `executionReport`
event: the raw event plus the named fields, with `"Z"` and `"p"` run
through `float(...)`. -/
structure BinanceOrder where
  event : UserMsg
  symbol : String
  side : String
  order_type : String
  id : String
  cumulative_quote_qty : Rat
  status : String
  price : Rat
  transaction_time : String
deriving DecidableEq

/-- `BinanceOrder(event)`: `none` models a raised `KeyError` (absent field)
or `ValueError` (malformed numeric string); on a raise the constructor has
mutated nothing but the discarded object itself. -/
def BinanceOrder.make? (ev : UserMsg) : Option BinanceOrder := do
  let sv ← ev.s
  let sidev ← ev.S
  let ov ← ev.o
  let iv ← ev.i
  let zraw ← ev.Z
  let zv ← parseFloat? zraw
  let xv ← ev.X
  let praw ← ev.p
  let pv ← parseFloat? praw
  let tv ← ev.T
  pure ⟨ev, sv, sidev, ov, iv, zv, xv, pv, tv⟩

/-- The four collections of `BinanceCache`.  `non_existent_tickers` is
never touched by the stream manager; it is carried for completeness. -/
structure BinanceCache where
  ticker_values : List (String × Rat)
  balances : List (String × Rat)
  non_existent_tickers : List String
  orders : List (String × BinanceOrder)
deriving DecidableEq

/-- The cache as initialised at class definition: all collections empty. -/
def BinanceCache.empty : BinanceCache := ⟨[], [], [], []⟩

/-- Socket-supervision side effects a handler can perform, in execution
order: `stop*Socket` is the `self.bm.stop_socket(...)` call,
`restart*Socket` the recursive `self._start_..._socket()` call, and
`clear*` the `self.cache....clear()` call. -/
inductive SupEvent
  | stopTickerSocket
  | restartTickerSocket
  | clearTickerValues
  | stopUserSocket
  | restartUserSocket
  | clearBalances
deriving DecidableEq, BEq

/-- Result of running one handler: the cache as left behind (Python
mutates it in place, so it is the post-state even when the handler
raised), the supervision side effects in the order they were performed,
and whether the handler raised. -/
structure PResult where
  cache : BinanceCache
  events : List SupEvent
  raised : Bool
deriving DecidableEq

/-- The loop `for ticker in msg: self.cache.ticker_values[ticker["s"]] =
float(ticker["c"])`, returning the map as left behind and whether
`float` raised (updates before the malformed one stay applied). -/
def applyTickerUpdates : List TickerUpdate → List (String × Rat) → List (String × Rat) × Bool
  | [], m => (m, false)
  | t :: ts, m =>
      match parseFloat? t.c with
      | some v => applyTickerUpdates ts (mapSet m t.s v)
      | none => (m, true)

/-- The loop `for bal in msg["B"]: self.cache.balances[bal["a"]] =
float(bal["f"])`, with the same raise semantics. -/
def applyBalanceEntries : List BalanceEntry → List (String × Rat) → List (String × Rat) × Bool
  | [], m => (m, false)
  | b :: bs, m =>
      match parseFloat? b.f with
      | some v => applyBalanceEntries bs (mapSet m b.a v)
      | none => (m, true)

/-- `BinanceStreamManager._process_ticker_values`. -/
def processTickerMsg (msg : TickerMsg) (c : BinanceCache) : PResult :=
  match msg with
  | .errDict ev =>
      if ev = "error" then
        ⟨{ c with ticker_values := [] },
         [.stopTickerSocket, .restartTickerSocket, .clearTickerValues], false⟩
      else
        ⟨c, [], true⟩
  | .updates ts =>
      let r := applyTickerUpdates ts c.ticker_values
      ⟨{ c with ticker_values := r.1 }, [], r.2⟩

/-- `BinanceStreamManager._process_user_socket`. -/
def processUserMsg (msg : UserMsg) (c : BinanceCache) : PResult :=
  match msg.e with
  | none => ⟨c, [], true⟩
  | some ev =>
      if ev = "error" then
        ⟨{ c with balances := [] },
         [.stopUserSocket, .restartUserSocket, .clearBalances], false⟩
      else if ev = "outboundAccountPosition" then
        match msg.B with
        | none => ⟨c, [], true⟩
        | some bs =>
            let r := applyBalanceEntries bs c.balances
            ⟨{ c with balances := r.1 }, [], r.2⟩
      else if ev = "balanceUpdate" then
        match msg.a with
        | none => ⟨c, [], true⟩
        | some asset =>
            match mapDel c.balances asset with
            | none => ⟨c, [], true⟩
            | some b => ⟨{ c with balances := b }, [], false⟩
      else if ev = "executionReport" then
        match BinanceOrder.make? msg with
        | none => ⟨c, [], true⟩
        | some ord => ⟨{ c with orders := mapSet c.orders ord.id ord }, [], false⟩
      else ⟨c, [], false⟩

/-- Deliver a sequence of ticker messages in order.  The transport's
event loop keeps delivering later callbacks even if an earlier handler
raised, so processing continues; raise flags are or-ed. -/
def processTickerSeq : List TickerMsg → BinanceCache → PResult
  | [], c => ⟨c, [], false⟩
  | m :: ms, c =>
      let r := processTickerMsg m c
      let r2 := processTickerSeq ms r.cache
      ⟨r2.cache, r.events ++ r2.events, r.raised || r2.raised⟩

/-- Outcome of one call to the transport's start operation
(`self.bm.start_ticker_socket(...)` / `start_user_socket(...)`):
a handle, a falsy value with no exception, or a raised exception. -/
inductive StartOutcome
  | ok (handle : Nat)
  | noHandle
  | exn
deriving DecidableEq

/-- Result of running the start machinery: `ret h n` means control
returned value `h` after `n` transport calls (counting from call index
0), `raised n` means an exception propagated to the caller after `n`
transport calls. -/
inductive RunResult
  | ret (handle : Option Nat) (calls : Nat)
  | raised (calls : Nat)
deriving DecidableEq

/-- The `while attempts < 20` loop of `BinanceStreamManager.retry`:
`f` is the bound `func` (a start method), `rem` the attempts remaining
out of 20, `k` the index of the next transport call.  A normal return
from `func` — even a `None` — is returned immediately; an exception is
caught, the attempt counter advances, and the loop retries; once the
20 attempts are exhausted the loop falls through and returns `None`. -/
def retryGo (f : Nat → RunResult) : Nat → Nat → RunResult
  | 0, k => .ret none k
  | rem + 1, k =>
      match f k with
      | .ret v k' => .ret v k'
      | .raised k' => retryGo f rem k'

/-- `BinanceStreamManager._start_ticker_values_socket` (and, identically,
`_start_user_socket`): call the transport once; a truthy handle is
returned, a raised exception propagates, and a falsy handle enters
`self.retry(self._start_..._socket)` — whose attempts re-run this very
method, recursing.  `outcomes k` is what the `k`-th transport call does;
`fuel` is the remaining interpreter recursion depth, and exhausting it
models the `RecursionError` Python raises at the call site. -/
def startSocketAux (outcomes : Nat → StartOutcome) : Nat → Nat → RunResult
  | 0, k => .raised k
  | fuel + 1, k =>
      match outcomes k with
      | .ok h => .ret (some h) (k + 1)
      | .exn => .raised (k + 1)
      | .noHandle => retryGo (fun k' => startSocketAux outcomes fuel k') 20 (k + 1)

/-- A user stream error message: `{"e": "error"}` with the other fields
irrelevant (absent). -/
def userErrorMsg : UserMsg := { UserMsg.empty with e := some ("error") }

/-- An `outboundAccountPosition` event carrying the `"B"` array `bs`. -/
def outboundMsg (bs : List BalanceEntry) : UserMsg :=
  { UserMsg.empty with e := some ("outboundAccountPosition"), B := some bs }

/-- A `balanceUpdate` event naming `asset` in its `"a"` field. -/
def balanceUpdateMsg (asset : String) : UserMsg :=
  { UserMsg.empty with e := some ("balanceUpdate"), a := some asset }

/-- Whether a supervision event is one of the cache-clear actions. -/
def isClearEvent : SupEvent → Bool
  | .clearTickerValues => true
  | .clearBalances => true
  | _ => false

/-- Whether a supervision event is one of the subscription restarts. -/
def isRestartEvent : SupEvent → Bool
  | .restartTickerSocket => true
  | .restartUserSocket => true
  | _ => false

/-- Stated from the claim's words (C2): in a recovery event sequence the
cache clear precedes the restart, i.e. some clear action occurs strictly
before the first restart action. -/
def clearPrecedesRestart (evs : List SupEvent) : Bool :=
  match evs.findIdx? isClearEvent, evs.findIdx? isRestartEvent with
  | some ic, some ir => Nat.blt ic ir
  | _, _ => false

/-- The retry loop applied to a start method whose next `rem` transport
calls all raise returns `None` after exactly those `rem` attempts. -/
theorem retryGo_exn (outcomes : Nat → StartOutcome) (g : Nat) :
    ∀ rem k, (∀ j, j < rem → outcomes (k + j) = StartOutcome.exn) →
      retryGo (fun x => startSocketAux outcomes (g + 1) x) rem k
        = RunResult.ret none (k + rem) := by
  intro rem
  induction rem with
  | zero => intro k _; simp [retryGo]
  | succ n ih =>
      intro k h
      have h0 : outcomes k = StartOutcome.exn := by
        simpa using h 0 (Nat.succ_pos n)
      have hstep : startSocketAux outcomes (g + 1) k = RunResult.raised (k + 1) := by
        simp [startSocketAux, h0]
      have hrest : ∀ j, j < n → outcomes (k + 1 + j) = StartOutcome.exn := by
        intro j hj
        have := h (j + 1) (by omega)
        have harr : k + (j + 1) = k + 1 + j := by omega
        rwa [harr] at this
      have := ih (k + 1) hrest
      simp only [retryGo, hstep, this]
      have : k + 1 + n = k + (n + 1) := by omega
      rw [this]

/-- C1 (amended): when the initial transport call returns no handle and
every one of the following attempts fails by raising, the bounded retry
loop makes exactly 20 attempts, makes no 21st attempt (transport call
index `k + 21` is never consulted), and control returns `None`.  (The
bound does not hold when attempts fail by returning no handle without
raising — see the counterexample theorem for claim C1.) -/
theorem start_retry_exn_bounded (outcomes : Nat → StartOutcome) (k g : Nat)
    (h0 : outcomes k = StartOutcome.noHandle)
    (hexn : ∀ j, j < 20 → outcomes (k + 1 + j) = StartOutcome.exn) :
    startSocketAux outcomes (g + 2) k = RunResult.ret none (k + 21) := by
  have hrw : startSocketAux outcomes (g + 2) k
      = retryGo (fun x => startSocketAux outcomes (g + 1) x) 20 (k + 1) := by
    show startSocketAux outcomes ((g + 1) + 1) k = _
    simp [startSocketAux, h0]
  rw [hrw, retryGo_exn outcomes g 20 (k + 1) hexn]

/-- Witness for `start_retry_exn_bounded`: first call yields no handle,
every later call raises; with recursion depth 2 the run returns `None`
after exactly 21 transport calls. -/
theorem start_retry_exn_bounded_witness :
    startSocketAux (fun j => if j = 0 then StartOutcome.noHandle else StartOutcome.exn) 2 0
      = RunResult.ret none 21 := by
  have h := start_retry_exn_bounded
    (fun j => if j = 0 then StartOutcome.noHandle else StartOutcome.exn) 0 0
    (by decide) (fun j hj => by simp)
  simpa using h

/-- C1 counterexample: when the transport fails to yield a handle on
every call by returning a falsy value without raising, the start
operation re-enters `retry` recursively; with recursion budget 25 it
makes 25 transport attempts — i.e. a 21st attempt does happen — before
`None` finally propagates out, so the claimed bound of 20 attempts is
violated in this failure mode. -/
theorem start_retry_noHandle_exceeds_bound :
    startSocketAux (fun _ => StartOutcome.noHandle) 25 0 = RunResult.ret none 25
    ∧ 20 < 25 := by
  exact ⟨by decide, by decide⟩

/-- C2 counterexample: for both subscriptions, processing an in-band
error message produces the recovery sequence stop → restart → clear, so
the cache clear does **not** precede the restart. -/
theorem recovery_clear_not_before_restart_cex :
    (processTickerMsg (TickerMsg.errDict ("error")) BinanceCache.empty).events
      = [SupEvent.stopTickerSocket, SupEvent.restartTickerSocket, SupEvent.clearTickerValues]
    ∧ (processUserMsg userErrorMsg BinanceCache.empty).events
      = [SupEvent.stopUserSocket, SupEvent.restartUserSocket, SupEvent.clearBalances]
    ∧ clearPrecedesRestart
        (processTickerMsg (TickerMsg.errDict ("error")) BinanceCache.empty).events = false
    ∧ clearPrecedesRestart (processUserMsg userErrorMsg BinanceCache.empty).events = false := by
  refine ⟨by decide, by decide, by decide, by decide⟩

/-- C2 (amended): on an in-band error message the handler stops the
current transport handle, then re-enters starting for the same
subscription, and only then clears the corresponding cache collection —
the restart precedes the cache clear, for both subscriptions, from any
cache state. -/
theorem recovery_stop_restart_clear_order (c c' : BinanceCache) (msg : UserMsg)
    (hmsg : msg.e = some ("error")) :
    (processTickerMsg (TickerMsg.errDict ("error")) c).events
      = [SupEvent.stopTickerSocket, SupEvent.restartTickerSocket, SupEvent.clearTickerValues]
    ∧ (processUserMsg msg c').events
      = [SupEvent.stopUserSocket, SupEvent.restartUserSocket, SupEvent.clearBalances] := by
  constructor
  · simp [processTickerMsg]
  · simp [processUserMsg, hmsg]

/-- Witness for `recovery_stop_restart_clear_order` at a concrete cache
and error message. -/
theorem recovery_stop_restart_clear_order_witness :
    (processTickerMsg (TickerMsg.errDict ("error")) BinanceCache.empty).events
      = [SupEvent.stopTickerSocket, SupEvent.restartTickerSocket, SupEvent.clearTickerValues]
    ∧ (processUserMsg userErrorMsg BinanceCache.empty).events
      = [SupEvent.stopUserSocket, SupEvent.restartUserSocket, SupEvent.clearBalances] :=
  recovery_stop_restart_clear_order BinanceCache.empty BinanceCache.empty userErrorMsg rfl

/-- C7: an in-band ticker error message raises nothing, leaves the
ticker-price cache empty once the handler returns (the clear is the last
recovery step), and issues exactly one restart of the ticker
subscription. -/
theorem ticker_error_clears_and_restarts_once (c : BinanceCache) :
    (processTickerMsg (TickerMsg.errDict ("error")) c).raised = false
    ∧ (processTickerMsg (TickerMsg.errDict ("error")) c).cache.ticker_values = []
    ∧ (processTickerMsg (TickerMsg.errDict ("error")) c).events.count
        SupEvent.restartTickerSocket = 1 := by
  refine ⟨rfl, rfl, rfl⟩

/-- C3: a `balanceUpdate` event for `asset`: when the asset is present
in balances its entry is removed entirely (nothing raised, key absent
afterwards); when it is absent a `KeyError` propagates and the cache is
unchanged; and entries for other assets are unchanged in both cases. -/
theorem balance_update_removes_or_raises (asset : String) (c : BinanceCache)
    (hd : distinctKeys c.balances = true) :
    ((mapGet? c.balances asset).isSome →
        (processUserMsg (balanceUpdateMsg asset) c).raised = false
        ∧ mapGet? (processUserMsg (balanceUpdateMsg asset) c).cache.balances asset = none)
    ∧ (mapGet? c.balances asset = none →
        (processUserMsg (balanceUpdateMsg asset) c).raised = true
        ∧ (processUserMsg (balanceUpdateMsg asset) c).cache = c)
    ∧ (∀ a', a' ≠ asset →
        mapGet? (processUserMsg (balanceUpdateMsg asset) c).cache.balances a'
          = mapGet? c.balances a') := by
  cases hdel : mapDel c.balances asset with
  | none =>
      have hget : mapGet? c.balances asset = none := (mapDel_none_iff _ _).mp hdel
      have hr : processUserMsg (balanceUpdateMsg asset) c = ⟨c, [], true⟩ := by
        simp [processUserMsg, balanceUpdateMsg, UserMsg.empty, hdel]
      refine ⟨?_, ?_, ?_⟩
      · intro hsome
        rw [hget] at hsome
        simp at hsome
      · intro _
        rw [hr]
        exact ⟨rfl, rfl⟩
      · intro a' _
        rw [hr]
  | some b =>
      have hr : processUserMsg (balanceUpdateMsg asset) c
          = ⟨{ c with balances := b }, [], false⟩ := by
        simp [processUserMsg, balanceUpdateMsg, UserMsg.empty, hdel]
      refine ⟨?_, ?_, ?_⟩
      · intro _
        rw [hr]
        exact ⟨rfl, mapGet_mapDel_self c.balances asset hd b hdel⟩
      · intro hnone
        rw [(mapDel_none_iff c.balances asset).mpr hnone] at hdel
        cases hdel
      · intro a' ha'
        rw [hr]
        exact mapGet_mapDel_other c.balances asset a' ha' b hdel

/-- Witness for `balance_update_removes_or_raises`: deleting `"BTC"` from
a two-asset balance map removes it, leaves `"ETH"` untouched, and a
second delete of the now-absent `"LTC"` raises. -/
theorem balance_update_removes_or_raises_witness :
    (processUserMsg (balanceUpdateMsg ("BTC"))
        ⟨[], [("BTC", 1), ("ETH", 2)], [], []⟩).raised = false
    ∧ mapGet? (processUserMsg (balanceUpdateMsg ("BTC"))
        ⟨[], [("BTC", 1), ("ETH", 2)], [], []⟩).cache.balances ("BTC") = none
    ∧ mapGet? (processUserMsg (balanceUpdateMsg ("BTC"))
        ⟨[], [("BTC", 1), ("ETH", 2)], [], []⟩).cache.balances ("ETH") = some 2
    ∧ (processUserMsg (balanceUpdateMsg ("LTC"))
        ⟨[], [("BTC", 1), ("ETH", 2)], [], []⟩).raised = true := by
  have h1 := balance_update_removes_or_raises ("BTC") ⟨[], [("BTC", 1), ("ETH", 2)], [], []⟩
    (by decide)
  have h2 := balance_update_removes_or_raises ("LTC") ⟨[], [("BTC", 1), ("ETH", 2)], [], []⟩
    (by decide)
  refine ⟨(h1.1 (by decide)).1, (h1.1 (by decide)).2, ?_, (h2.2.1 (by decide)).1⟩
  rw [h1.2.2 ("ETH") (by decide)]
  decide

/-- The success path of the per-element store loops: fold
`map[key] = float(raw)` over (key, raw-string) pairs, stopping — like
the Python loop — at the first malformed string. -/
def pairsFold : List (String × String) → List (String × Rat) → List (String × Rat)
  | [], m => m
  | x :: ps, m =>
      match parseFloat? x.2 with
      | some v => pairsFold ps (mapSet m x.1 v)
      | none => m

theorem applyTickerUpdates_ok (ts : List TickerUpdate) (m : List (String × Rat))
    (hok : ∀ u ∈ ts, (parseFloat? u.c).isSome) :
    applyTickerUpdates ts m = (pairsFold (ts.map (fun u => (u.s, u.c))) m, false) := by
  induction ts generalizing m with
  | nil => simp [applyTickerUpdates, pairsFold]
  | cons hd tl ih =>
      obtain ⟨v, hv⟩ := Option.isSome_iff_exists.mp (hok hd (List.mem_cons_self hd tl))
      simp only [applyTickerUpdates, pairsFold, List.map_cons, hv]
      exact ih _ (fun u hu => hok u (List.mem_cons_of_mem hd hu))

theorem applyBalanceEntries_ok (bs : List BalanceEntry) (m : List (String × Rat))
    (hok : ∀ b ∈ bs, (parseFloat? b.f).isSome) :
    applyBalanceEntries bs m = (pairsFold (bs.map (fun b => (b.a, b.f))) m, false) := by
  induction bs generalizing m with
  | nil => simp [applyBalanceEntries, pairsFold]
  | cons hd tl ih =>
      obtain ⟨v, hv⟩ := Option.isSome_iff_exists.mp (hok hd (List.mem_cons_self hd tl))
      simp only [applyBalanceEntries, pairsFold, List.map_cons, hv]
      exact ih _ (fun b hb => hok b (List.mem_cons_of_mem hd hb))

theorem pairsFold_append (ps qs : List (String × String)) (m : List (String × Rat))
    (hok : ∀ x ∈ ps, (parseFloat? x.2).isSome) :
    pairsFold (ps ++ qs) m = pairsFold qs (pairsFold ps m) := by
  induction ps generalizing m with
  | nil => simp [pairsFold]
  | cons hd tl ih =>
      obtain ⟨v, hv⟩ := Option.isSome_iff_exists.mp (hok hd (List.mem_cons_self hd tl))
      simp only [List.cons_append, pairsFold, hv]
      exact ih _ (fun x hx => hok x (List.mem_cons_of_mem hd hx))

/-- Last-write-wins for the store loops: after folding, a key reads as
the parsed raw string of the last pair carrying it, and keys that never
occur read as they did in the initial map. -/
theorem pairsFold_mapGet (ps : List (String × String)) (m : List (String × Rat))
    (k : String) (hok : ∀ x ∈ ps, (parseFloat? x.2).isSome) :
    mapGet? (pairsFold ps m) k
      = match (ps.filter (fun x => x.1 == k)).getLast? with
        | some x => parseFloat? x.2
        | none => mapGet? m k := by
  induction ps generalizing m with
  | nil => simp [pairsFold]
  | cons hd tl ih =>
      obtain ⟨k1, raw⟩ := hd
      obtain ⟨v, hv⟩ := Option.isSome_iff_exists.mp (hok _ (List.mem_cons_self _ tl))
      have htl : ∀ x ∈ tl, (parseFloat? x.2).isSome :=
        fun x hx => hok x (List.mem_cons_of_mem _ hx)
      simp only [pairsFold, hv]
      rw [ih _ htl]
      by_cases hk : k1 = k
      · rw [List.filter_cons_of_pos (by simp [hk])]
        cases hfl : List.filter (fun x => x.1 == k) tl with
        | nil =>
            simp only [List.getLast?_singleton]
            rw [mapGet_mapSet]
            simp [hk, hv]
        | cons x xs =>
            rw [List.getLast?_cons_cons]
            cases hgl : (x :: xs).getLast? with
            | none => exact absurd (List.getLast?_eq_none_iff.mp hgl) (by simp)
            | some y => rfl
      · rw [List.filter_cons_of_neg (by simp [hk])]
        cases hfl : List.filter (fun x => x.1 == k) tl with
        | nil =>
            rw [mapGet_mapSet]
            simp [hk]
        | cons x xs => rfl

/-- Deliver the whole non-error message sequence: when every price
string is well formed nothing raises and the cache ends up as the fold
of all the flattened updates. -/
theorem processTickerSeq_ok (msgs : List (List TickerUpdate)) (c : BinanceCache)
    (hok : ∀ m ∈ msgs, ∀ u ∈ m, (parseFloat? u.c).isSome) :
    processTickerSeq (msgs.map TickerMsg.updates) c
      = ⟨{ c with ticker_values :=
            pairsFold ((msgs.flatten).map (fun u => (u.s, u.c))) c.ticker_values },
         [], false⟩ := by
  induction msgs generalizing c with
  | nil => simp [processTickerSeq, pairsFold]
  | cons hd tl ih =>
      have hhd : ∀ u ∈ hd, (parseFloat? u.c).isSome :=
        fun u hu => hok hd (List.mem_cons_self hd tl) u hu
      have htl : ∀ m ∈ tl, ∀ u ∈ m, (parseFloat? u.c).isSome :=
        fun m hm u hu => hok m (List.mem_cons_of_mem hd hm) u hu
      have hmsg : processTickerMsg (TickerMsg.updates hd) c
          = ⟨{ c with ticker_values := pairsFold (hd.map (fun u => (u.s, u.c))) c.ticker_values },
             [], false⟩ := by
        simp [processTickerMsg, applyTickerUpdates_ok hd c.ticker_values hhd]
      simp only [List.map_cons, processTickerSeq, hmsg, ih _ htl]
      simp only [List.flatten_cons, List.map_append]
      rw [pairsFold_append]
      · simp
      · intro x hx
        obtain ⟨u, hu, rfl⟩ := List.mem_map.mp hx
        exact hhd u hu

/-- C4: over any sequence of non-error ticker messages whose price
strings all parse, the final ticker-price cache maps each symbol that
appeared to the parsed price of the most recent update carrying it, and
has no entry for symbols that never appeared (the cache starts empty). -/
theorem ticker_last_write_wins (msgs : List (List TickerUpdate)) (c : BinanceCache)
    (hc : c.ticker_values = [])
    (hok : ∀ m ∈ msgs, ∀ u ∈ m, (parseFloat? u.c).isSome) (sym : String) :
    mapGet? (processTickerSeq (msgs.map TickerMsg.updates) c).cache.ticker_values sym
      = match ((msgs.flatten).filter (fun u => u.s == sym)).getLast? with
        | some u => parseFloat? u.c
        | none => none := by
  rw [processTickerSeq_ok msgs c hok]
  have hjoin : ∀ x ∈ (msgs.flatten).map (fun u => (u.s, u.c)), (parseFloat? x.2).isSome := by
    intro x hx
    obtain ⟨u, hu, rfl⟩ := List.mem_map.mp hx
    obtain ⟨m, hm, hum⟩ := List.mem_flatten.mp hu
    exact hok m hm u hum
  show mapGet? (pairsFold ((msgs.flatten).map (fun u => (u.s, u.c))) c.ticker_values) sym = _
  rw [pairsFold_mapGet _ _ _ hjoin, hc]
  rw [List.filter_map, List.getLast?_map]
  have hcomp : ((fun x : String × String => x.1 == sym) ∘ (fun u : TickerUpdate => (u.s, u.c)))
      = fun u : TickerUpdate => u.s == sym := rfl
  rw [hcomp]
  cases ((msgs.flatten).filter (fun u => u.s == sym)).getLast? with
  | none => rfl
  | some u => rfl

/-- Witness for `ticker_last_write_wins`: two messages, symbol `"AAA"`
updated in both (last price wins), `"BBB"` updated once, `"CCC"` never. -/
theorem ticker_last_write_wins_witness :
    mapGet? (processTickerSeq
        [TickerMsg.updates [⟨"AAA", "1"⟩, ⟨"BBB", "2"⟩], TickerMsg.updates [⟨"AAA", "3"⟩]]
        BinanceCache.empty).cache.ticker_values ("AAA") = parseFloat? ("3")
    ∧ mapGet? (processTickerSeq
        [TickerMsg.updates [⟨"AAA", "1"⟩, ⟨"BBB", "2"⟩], TickerMsg.updates [⟨"AAA", "3"⟩]]
        BinanceCache.empty).cache.ticker_values ("BBB") = parseFloat? ("2")
    ∧ mapGet? (processTickerSeq
        [TickerMsg.updates [⟨"AAA", "1"⟩, ⟨"BBB", "2"⟩], TickerMsg.updates [⟨"AAA", "3"⟩]]
        BinanceCache.empty).cache.ticker_values ("CCC") = none := by
  have hshape : [TickerMsg.updates [⟨"AAA", "1"⟩, ⟨"BBB", "2"⟩], TickerMsg.updates [⟨"AAA", "3"⟩]]
      = ([[⟨"AAA", "1"⟩, ⟨"BBB", "2"⟩], [⟨"AAA", "3"⟩]] : List (List TickerUpdate)).map
          TickerMsg.updates := rfl
  have h1 := ticker_last_write_wins [[⟨"AAA", "1"⟩, ⟨"BBB", "2"⟩], [⟨"AAA", "3"⟩]]
    BinanceCache.empty rfl (by decide) "AAA"
  have h2 := ticker_last_write_wins [[⟨"AAA", "1"⟩, ⟨"BBB", "2"⟩], [⟨"AAA", "3"⟩]]
    BinanceCache.empty rfl (by decide) "BBB"
  have h3 := ticker_last_write_wins [[⟨"AAA", "1"⟩, ⟨"BBB", "2"⟩], [⟨"AAA", "3"⟩]]
    BinanceCache.empty rfl (by decide) "CCC"
  rw [hshape]
  refine ⟨?_, ?_, ?_⟩
  · rw [h1]; decide
  · rw [h2]; decide
  · rw [h3]; decide

/-- C6: an `outboundAccountPosition` event (all free amounts well
formed) raises nothing, maps each listed asset to the parsed free
amount of its most recent entry in the event's `B` array, and leaves
every asset not listed exactly as it was. -/
theorem outbound_position_updates_balances (bs : List BalanceEntry) (c : BinanceCache)
    (hok : ∀ b ∈ bs, (parseFloat? b.f).isSome) (asset : String) :
    (processUserMsg (outboundMsg bs) c).raised = false
    ∧ mapGet? (processUserMsg (outboundMsg bs) c).cache.balances asset
      = match (bs.filter (fun b => b.a == asset)).getLast? with
        | some b => parseFloat? b.f
        | none => mapGet? c.balances asset := by
  have hstep : processUserMsg (outboundMsg bs) c
      = ⟨{ c with balances := pairsFold (bs.map (fun b => (b.a, b.f))) c.balances },
         [], false⟩ := by
    simp [processUserMsg, outboundMsg, UserMsg.empty,
      applyBalanceEntries_ok bs c.balances hok]
  rw [hstep]
  refine ⟨rfl, ?_⟩
  have hmap : ∀ x ∈ bs.map (fun b => (b.a, b.f)), (parseFloat? x.2).isSome := by
    intro x hx
    obtain ⟨b, hb, rfl⟩ := List.mem_map.mp hx
    exact hok b hb
  show mapGet? (pairsFold (bs.map (fun b => (b.a, b.f))) c.balances) asset = _
  rw [pairsFold_mapGet _ _ _ hmap, List.filter_map, List.getLast?_map]
  have hcomp : ((fun x : String × String => x.1 == asset) ∘ (fun b : BalanceEntry => (b.a, b.f)))
      = fun b : BalanceEntry => b.a == asset := rfl
  rw [hcomp]
  cases (bs.filter (fun b => b.a == asset)).getLast? with
  | none => rfl
  | some b => rfl

/-- Witness for `outbound_position_updates_balances`: an event listing
`"BTC"` twice (last amount wins) and `"ETH"` once, over a cache that
already holds `"XRP"` (untouched). -/
theorem outbound_position_updates_balances_witness :
    (processUserMsg (outboundMsg [⟨"BTC", "1"⟩, ⟨"ETH", "5"⟩, ⟨"BTC", "2"⟩])
        ⟨[], [("XRP", 7)], [], []⟩).raised = false
    ∧ mapGet? (processUserMsg (outboundMsg [⟨"BTC", "1"⟩, ⟨"ETH", "5"⟩, ⟨"BTC", "2"⟩])
        ⟨[], [("XRP", 7)], [], []⟩).cache.balances ("BTC") = parseFloat? ("2")
    ∧ mapGet? (processUserMsg (outboundMsg [⟨"BTC", "1"⟩, ⟨"ETH", "5"⟩, ⟨"BTC", "2"⟩])
        ⟨[], [("XRP", 7)], [], []⟩).cache.balances ("XRP") = some 7 := by
  have h1 := outbound_position_updates_balances [⟨"BTC", "1"⟩, ⟨"ETH", "5"⟩, ⟨"BTC", "2"⟩]
    ⟨[], [("XRP", 7)], [], []⟩ (by decide) "BTC"
  have h2 := outbound_position_updates_balances [⟨"BTC", "1"⟩, ⟨"ETH", "5"⟩, ⟨"BTC", "2"⟩]
    ⟨[], [("XRP", 7)], [], []⟩ (by decide) "XRP"
  refine ⟨h1.1, ?_, ?_⟩
  · rw [h1.2]; decide
  · rw [h2.2]; decide

/-- C8: a ticker message containing any update with a malformed price
string makes the handler propagate the parse fault. -/
theorem malformed_ticker_price_raises (ts : List TickerUpdate) (c : BinanceCache)
    (hbad : ∃ u ∈ ts, parseFloat? u.c = none) :
    (processTickerMsg (TickerMsg.updates ts) c).raised = true := by
  suffices h : ∀ (l : List TickerUpdate), (∃ u ∈ l, parseFloat? u.c = none) →
      ∀ m, (applyTickerUpdates l m).2 = true by
    have := h ts hbad c.ticker_values
    simp [processTickerMsg, this]
  intro l
  induction l with
  | nil => intro h m; simp at h
  | cons hd tl ih =>
      intro h m
      cases hp : parseFloat? hd.c with
      | none => simp [applyTickerUpdates, hp]
      | some v =>
          simp only [applyTickerUpdates, hp]
          apply ih
          obtain ⟨u, hu, hun⟩ := h
          rcases List.mem_cons.mp hu with h1 | h1
          · rw [h1] at hun
            rw [hun] at hp
            cases hp
          · exact ⟨u, h1, hun⟩

/-- Witness for `malformed_ticker_price_raises`: a single-update message
whose price string is not numeric. -/
theorem malformed_ticker_price_raises_witness :
    (processTickerMsg (TickerMsg.updates [⟨"AAA", "oops"⟩]) BinanceCache.empty).raised
      = true :=
  malformed_ticker_price_raises [⟨"AAA", "oops"⟩] BinanceCache.empty
    ⟨⟨"AAA", "oops"⟩, by decide, by decide⟩

/-- C9: ticker processing is not atomic on a parse fault: with a
malformed price at position `k`, the updates before `k` are already in
the cache when the fault propagates, and stay there. -/
theorem ticker_fault_keeps_earlier_updates (us vs : List TickerUpdate)
    (u : TickerUpdate) (c : BinanceCache)
    (hok : ∀ x ∈ us, (parseFloat? x.c).isSome) (hbad : parseFloat? u.c = none) :
    (processTickerMsg (TickerMsg.updates (us ++ u :: vs)) c).raised = true
    ∧ (processTickerMsg (TickerMsg.updates (us ++ u :: vs)) c).cache.ticker_values
      = pairsFold (us.map (fun x => (x.s, x.c))) c.ticker_values := by
  have key : ∀ (l : List TickerUpdate) (m : List (String × Rat)),
      (∀ x ∈ l, (parseFloat? x.c).isSome) →
      applyTickerUpdates (l ++ u :: vs) m
        = (pairsFold (l.map (fun x => (x.s, x.c))) m, true) := by
    intro l
    induction l with
    | nil => intro m _; simp [applyTickerUpdates, pairsFold, hbad]
    | cons hd tl ih =>
        intro m hl
        obtain ⟨v, hv⟩ := Option.isSome_iff_exists.mp (hl hd (List.mem_cons_self hd tl))
        simp only [List.cons_append, applyTickerUpdates, pairsFold, List.map_cons, hv]
        exact ih _ (fun x hx => hl x (List.mem_cons_of_mem hd hx))
  have h := key us c.ticker_values hok
  constructor
  · simp [processTickerMsg, h]
  · simp [processTickerMsg, h]

/-- Witness for `ticker_fault_keeps_earlier_updates`: the update before
the malformed one is visible in the cache after the fault. -/
theorem ticker_fault_keeps_earlier_updates_witness :
    (processTickerMsg (TickerMsg.updates [⟨"AAA", "1"⟩, ⟨"BBB", "x"⟩, ⟨"CCC", "3"⟩])
        BinanceCache.empty).raised = true
    ∧ (processTickerMsg (TickerMsg.updates [⟨"AAA", "1"⟩, ⟨"BBB", "x"⟩, ⟨"CCC", "3"⟩])
        BinanceCache.empty).cache.ticker_values
      = pairsFold [("AAA", "1")] [] := by
  have h := ticker_fault_keeps_earlier_updates [⟨"AAA", "1"⟩] [⟨"CCC", "3"⟩]
    ⟨"BBB", "x"⟩ BinanceCache.empty (by decide) (by decide)
  exact ⟨h.1, h.2⟩

/-- Whatever user message arrives, an order id already present in the
orders cache is still present afterwards: no user-stream event deletes
an order entry. -/
theorem orders_key_preserved_user (msg : UserMsg) (c : BinanceCache) (i : String)
    (h : (mapGet? c.orders i).isSome) :
    (mapGet? (processUserMsg msg c).cache.orders i).isSome := by
  cases hme : msg.e with
  | none => simp [processUserMsg, hme, h]
  | some ev =>
      by_cases h1 : ev = "error"
      · simp [processUserMsg, hme, h1, h]
      · by_cases h2 : ev = "outboundAccountPosition"
        · cases hB : msg.B <;> simp [processUserMsg, hme, h1, h2, hB, h]
        · by_cases h3 : ev = "balanceUpdate"
          · cases hma : msg.a with
            | none => simp [processUserMsg, hme, h1, h2, h3, hma, h]
            | some asset =>
                cases hdel : mapDel c.balances asset <;>
                  simp [processUserMsg, hme, h1, h2, h3, hma, hdel, h]
          · by_cases h4 : ev = "executionReport"
            · cases hmk : BinanceOrder.make? msg with
              | none => simp [processUserMsg, hme, h1, h2, h3, h4, hmk, h]
              | some ord =>
                  simp only [processUserMsg, hme, h1, h2, h3, h4, hmk, if_neg, if_pos,
                    ite_true, ite_false]
                  simp [h1, h2, h3, h4]
                  rw [mapGet_mapSet]
                  by_cases h5 : ord.id = i <;> simp [h5, h]
            · simp [processUserMsg, hme, h1, h2, h3, h4, h]

/-- Ticker messages never touch the orders cache at all. -/
theorem orders_key_preserved_ticker (tmsg : TickerMsg) (c : BinanceCache) (i : String)
    (h : (mapGet? c.orders i).isSome) :
    (mapGet? (processTickerMsg tmsg c).cache.orders i).isSome := by
  cases tmsg with
  | errDict ev => by_cases h1 : ev = "error" <;> simp [processTickerMsg, h1, h]
  | updates ts => simp [processTickerMsg, h]

/-- C5: two `executionReport` events with the same order id, processed
in order, leave under that id exactly the record built from the second
event; and no operation of this subsystem (user or ticker handler)
ever deletes an order entry. -/
theorem execution_report_overwrites (m1 m2 : UserMsg) (c : BinanceCache)
    (o1 o2 : BinanceOrder)
    (he1 : m1.e = some ("executionReport")) (he2 : m2.e = some ("executionReport"))
    (h1 : BinanceOrder.make? m1 = some o1) (h2 : BinanceOrder.make? m2 = some o2)
    (hid : o1.id = o2.id) :
    mapGet? (processUserMsg m2 (processUserMsg m1 c).cache).cache.orders o1.id
      = some o2
    ∧ (∀ (msg : UserMsg) (c' : BinanceCache) (i : String),
        (mapGet? c'.orders i).isSome →
        (mapGet? (processUserMsg msg c').cache.orders i).isSome)
    ∧ (∀ (tmsg : TickerMsg) (c' : BinanceCache) (i : String),
        (mapGet? c'.orders i).isSome →
        (mapGet? (processTickerMsg tmsg c').cache.orders i).isSome) := by
  refine ⟨?_, orders_key_preserved_user, orders_key_preserved_ticker⟩
  have hr1 : processUserMsg m1 c
      = ⟨{ c with orders := mapSet c.orders o1.id o1 }, [], false⟩ := by
    simp [processUserMsg, he1, h1]
  have hr2 : processUserMsg m2 (processUserMsg m1 c).cache
      = ⟨{ (processUserMsg m1 c).cache with
            orders := mapSet (processUserMsg m1 c).cache.orders o2.id o2 }, [], false⟩ := by
    simp [processUserMsg, he2, h2]
  rw [hr2, hid]
  show mapGet? (mapSet (processUserMsg m1 c).cache.orders o2.id o2) o2.id = some o2
  rw [mapGet_mapSet]
  simp

/-- Witness for `execution_report_overwrites`: two well-formed
`executionReport` events for order id `"42"` with prices `"1"` then
`"2"`; the id reads back as the second record. -/
theorem execution_report_overwrites_witness :
    mapGet? (processUserMsg
        ⟨some ("executionReport"), none, none, some ("AAABBB"), some ("SELL"), some ("LIMIT"),
          some ("42"), some ("9"), some ("FILLED"), some ("2"), some ("124")⟩
        (processUserMsg
          ⟨some ("executionReport"), none, none, some ("AAABBB"), some ("BUY"), some ("LIMIT"),
            some ("42"), some ("8"), some ("NEW"), some ("1"), some ("123")⟩
          BinanceCache.empty).cache).cache.orders ("42")
      = some ⟨⟨some ("executionReport"), none, none, some ("AAABBB"), some ("SELL"), some ("LIMIT"),
          some ("42"), some ("9"), some ("FILLED"), some ("2"), some ("124")⟩,
          "AAABBB", "SELL", "LIMIT", "42", 9, "FILLED", 2, "124"⟩ := by
  have h := execution_report_overwrites
    ⟨some ("executionReport"), none, none, some ("AAABBB"), some ("BUY"), some ("LIMIT"),
      some ("42"), some ("8"), some ("NEW"), some ("1"), some ("123")⟩
    ⟨some ("executionReport"), none, none, some ("AAABBB"), some ("SELL"), some ("LIMIT"),
      some ("42"), some ("9"), some ("FILLED"), some ("2"), some ("124")⟩
    BinanceCache.empty
    ⟨⟨some ("executionReport"), none, none, some ("AAABBB"), some ("BUY"), some ("LIMIT"),
        some ("42"), some ("8"), some ("NEW"), some ("1"), some ("123")⟩,
      "AAABBB", "BUY", "LIMIT", "42", 8, "NEW", 1, "123"⟩
    ⟨⟨some ("executionReport"), none, none, some ("AAABBB"), some ("SELL"), some ("LIMIT"),
        some ("42"), some ("9"), some ("FILLED"), some ("2"), some ("124")⟩,
      "AAABBB", "SELL", "LIMIT", "42", 9, "FILLED", 2, "124"⟩
    rfl rfl (by decide) (by decide) rfl
  exact h.1

/-- C10: a user message lacking the discriminant field `"e"` raises a
`KeyError` (cache untouched, no supervision action); the
unrecognised-kind no-op applies only when `"e"` is present with a value
outside the four handled kinds. -/
theorem user_msg_missing_discriminant_raises (msg : UserMsg) (c : BinanceCache) :
    (msg.e = none → processUserMsg msg c = ⟨c, [], true⟩)
    ∧ (∀ v, msg.e = some v → v ≠ "error" → v ≠ "outboundAccountPosition" →
        v ≠ "balanceUpdate" → v ≠ "executionReport" →
        processUserMsg msg c = ⟨c, [], false⟩) := by
  constructor
  · intro h
    simp [processUserMsg, h]
  · intro v hv h1 h2 h3 h4
    simp [processUserMsg, hv, h1, h2, h3, h4]

/-- Witness for `user_msg_missing_discriminant_raises`: the empty
message raises, a `"listStatus"` message is a silent no-op. -/
theorem user_msg_missing_discriminant_raises_witness :
    processUserMsg UserMsg.empty BinanceCache.empty
      = ⟨BinanceCache.empty, [], true⟩
    ∧ processUserMsg { UserMsg.empty with e := some ("listStatus") } BinanceCache.empty
      = ⟨BinanceCache.empty, [], false⟩ := by
  constructor
  · exact (user_msg_missing_discriminant_raises UserMsg.empty BinanceCache.empty).1 rfl
  · exact (user_msg_missing_discriminant_raises
      { UserMsg.empty with e := some ("listStatus") } BinanceCache.empty).2
      "listStatus" rfl (by decide) (by decide) (by decide) (by decide)

end BinanceStream
